import Mathlib

/-!
Shallow embedding of `src/filter_pdb.py` (`filter_pdb_by_residues`):
a fixed-column PDB record filter/rewriter.  Text lines are modelled as
`List Char`; Python string slicing, stripping and `int()` parsing are
modelled explicitly; exceptions (`ValueError` from `int()` or
`list.index`) are modelled by `Except Err`.
-/

namespace FilterPDB

/-- A raw text line, as a list of characters. -/
abbrev Chars := List Char

/-- Python `line.startswith(tag)`: `tag` is a character-by-character
prefix of `l`. -/
def hasTag : Chars → Chars → Bool
  | [], _ => true
  | _ :: _, [] => false
  | t :: ts, c :: cs => t == c && hasTag ts cs

def kwREMARK : Chars := ['R', 'E', 'M', 'A', 'R', 'K']
def kwTITLE : Chars := ['T', 'I', 'T', 'L', 'E']
def kwCRYST1 : Chars := ['C', 'R', 'Y', 'S', 'T', '1']
def kwMODEL : Chars := ['M', 'O', 'D', 'E', 'L']
def kwENDMDL : Chars := ['E', 'N', 'D', 'M', 'D', 'L']
def kwATOM : Chars := ['A', 'T', 'O', 'M']
def kwTER : Chars := ['T', 'E', 'R']
def kwCA : Chars := ['C', 'A']

/-- Python `line.startswith(('REMARK', 'TITLE', 'CRYST1'))` (source line 24). -/
def isPre (l : Chars) : Bool :=
  hasTag kwREMARK l || hasTag kwTITLE l || hasTag kwCRYST1 l

/-- Python slice `l[a:b]` (0-indexed half-open) for `a ≤ b`. -/
def pySlice (a b : Nat) (l : Chars) : Chars :=
  (l.drop a).take (b - a)

/-- Python `l.strip()`: remove leading and trailing whitespace (space,
tab, newline, carriage return). -/
def pyStrip (l : Chars) : Chars :=
  ((l.dropWhile Char.isWhitespace).reverse.dropWhile Char.isWhitespace).reverse

/-- Value of a list of decimal digit characters. -/
def digitsVal (l : Chars) : Nat :=
  l.foldl (fun a c => a * 10 + (c.toNat - '0'.toNat)) 0

/-- Python `int(l)`: strip whitespace, then an optional sign followed
by decimal digits; `none` models `ValueError`.  (Python's acceptance of
underscore digit separators and non-ASCII digits is not modelled.) -/
def pyInt (l : Chars) : Option Int :=
  match pyStrip l with
  | [] => none
  | '-' :: ds =>
      if ds ≠ [] ∧ ds.all Char.isDigit then some (-(digitsVal ds : Int)) else none
  | '+' :: ds =>
      if ds ≠ [] ∧ ds.all Char.isDigit then some ((digitsVal ds : Int)) else none
  | ds => if ds.all Char.isDigit then some ((digitsVal ds : Int)) else none

/-- Decimal digit characters of a natural number (`Nat.toDigits`). -/
def natChars (n : Nat) : Chars := Nat.toDigits 10 n

/-- Decimal representation of an integer, with a leading minus sign
when negative. -/
def intChars : Int → Chars
  | Int.ofNat n => natChars n
  | Int.negSucc n => '-' :: natChars (n + 1)

/-- Right-justify in a field of width `w`, space-padded: Python
format `{x:>w}` (no truncation when the text is wider). -/
def padLeft (w : Nat) (s : Chars) : Chars :=
  List.replicate (w - s.length) ' ' ++ s

/-- Python `f"{n:>5}"`-style formatting of a natural number. -/
def fmtNat (w : Nat) (n : Nat) : Chars := padLeft w (natChars n)

/-- Python `f"{i:>4}"`-style formatting of an integer. -/
def fmtInt (w : Nat) (i : Int) : Chars := padLeft w (intChars i)

/-- Source line 66: `new_line = atom_line[:6] + f"{atom_counter:>5}" +
atom_line[11:]`. -/
def updSerial (c : Nat) (l : Chars) : Chars :=
  l.take 6 ++ fmtNat 5 c ++ l.drop 11

/-- Source line 76: `new_line = new_line[:22] + f"{new_residue_num:>4}"
+ new_line[26:]`. -/
def updResidue (r : Int) (l : Chars) : Chars :=
  l.take 22 ++ fmtInt 4 r ++ l.drop 26

/-- The full rewrite of one selected atom line: serial update followed
by residue-number update (source lines 66 and 76). -/
def rewriteLine (c : Nat) (r : Int) (l : Chars) : Chars :=
  updResidue r (updSerial c l)

/-- Error conditions of the Python function, each of which raises and
aborts the run before any file is written. -/
inductive Err where
  /-- Python `int()` failure on a non-blank filter-file line (source line 9). -/
  | malformedFilterEntry
  /-- Python `int()` failure on the residue field of a CA atom line (source
  line 43 or 63). -/
  | atomResidueParse
  /-- Python `list.index` failure: residue absent from `original_residues`
  (source line 71). -/
  | residueLookup
deriving DecidableEq

deriving instance DecidableEq for Except

/-- Python `residue_num in target_residues` with `None` meaning keep all
(source line 46). -/
def targMem (target : Option (List Int)) (r : Int) : Bool :=
  match target with
  | none => true
  | some ts => ts.contains r

/-- Source lines 41-48: collect the CA atom lines of a model buffer
together with their parsed residue IDs (`ca_atoms`,
`current_model_residues`). -/
def selectCA (target : Option (List Int)) : List Chars → Except Err (List Chars × List Int)
  | [] => .ok ([], [])
  | l :: ls =>
    if hasTag kwATOM l && (pyStrip (pySlice 12 16 l) == kwCA) then
      match pyInt (pySlice 22 26 l) with
      | none => .error .atomResidueParse
      | some r =>
        if targMem target r then
          match selectCA target ls with
          | .error e => .error e
          | .ok (sel, rs) => .ok (l :: sel, r :: rs)
        else selectCA target ls
    else selectCA target ls

/-- The per-line selection predicate of source lines 42-46: tag `ATOM`,
atom-name field stripped equals `CA`, residue field parses, and the
residue is kept by the target set. -/
def caQual (target : Option (List Int)) (l : Chars) : Bool :=
  hasTag kwATOM l && (pyStrip (pySlice 12 16 l) == kwCA) &&
    (pyInt (pySlice 22 26 l)).elim false (targMem target)

/-- The parsed residue ID of a line (defaulting to 0 when the residue
field does not parse; only applied to lines where it does). -/
def resOf (l : Chars) : Int := (pyInt (pySlice 22 26 l)).getD 0

/-- Python `original_residues.index(r)`: 0-based index of the first
occurrence, `none` modelling `ValueError`. -/
def listIndex (r : Int) : List Int → Option Nat
  | [] => none
  | y :: ys => if y = r then some 0 else (listIndex r ys).map (· + 1)

/-- The new residue number of source lines 69-74: with renumbering the
1-based first-occurrence position in `orig`, otherwise the original. -/
def newResOf (renum : Bool) (orig : List Int) (r : Int) : Option Int :=
  if renum then (listIndex r orig).map (fun i => Int.ofNat i + 1) else some r

/-- Source lines 57-81: rewrite each collected atom line with the next
sequential serial number and the new residue number, threading
`atom_counter`; `ValueError` from `int()` or `list.index` is an error. -/
def renumberAtoms (renum : Bool) (orig : List Int) : List Chars → Nat → Except Err (List Chars × Nat)
  | [], c => .ok ([], c)
  | l :: ls, c =>
    if hasTag kwATOM l then
      match pyInt (pySlice 22 26 l) with
      | none => .error .atomResidueParse
      | some r =>
        match newResOf renum orig r with
        | none => .error .residueLookup
        | some newRes =>
          match renumberAtoms renum orig ls (c + 1) with
          | .error e => .error e
          | .ok (out, c1) => .ok (rewriteLine c newRes l :: out, c1)
    else
      match renumberAtoms renum orig ls c with
      | .error e => .error e
      | .ok (out, c1) => .ok (l :: out, c1)

/-- Source line 88: the synthesized TER record, built from the fixed
text TER plus three spaces, the 5-wide serial counter, six spaces, the
residue name at columns 17:20 of the last rewritten atom, a space, and
its chain plus residue tail at columns 21:26, ending in a newline. -/
def terLine (c : Nat) (last : Chars) : Chars :=
  ['T', 'E', 'R', ' ', ' ', ' '] ++ fmtNat 5 c ++ List.replicate 6 ' ' ++
    pySlice 17 20 last ++ [' '] ++ pySlice 21 26 last ++ ['\n']

/-- Source lines 84-89: append a TER record after the last rewritten
atom, when there is one. -/
def addTER (c : Nat) (flt : List Chars) : List Chars :=
  match flt.getLast? with
  | none => flt
  | some last => if hasTag kwATOM last then flt ++ [terLine c last] else flt

/-- The whole ENDMDL handler (source lines 37-89): select CA atoms,
capture `original_residues` on model 1, renumber, add TER.  Returns the
lines to append and the (possibly updated) `original_residues`. -/
def finalizeModel (target : Option (List Int)) (renum : Bool) (modelCount : Nat)
    (origIn : List Int) (buf : List Chars) : Except Err (List Chars × List Int) :=
  match selectCA target buf with
  | .error e => .error e
  | .ok (sel, curRes) =>
    match renumberAtoms renum (if modelCount = 1 then curRes else origIn) sel 1 with
    | .error e => .error e
    | .ok (flt, counter) =>
      .ok (addTER counter flt, if modelCount = 1 then curRes else origIn)

/-- The mutable state of the main loop (source lines 16-20). -/
structure St where
  output : List Chars
  inModel : Bool
  modelAtoms : List Chars
  originalResidues : List Int
  modelCount : Nat
deriving DecidableEq

/-- One iteration of the main loop (source lines 22-104). -/
def step (target : Option (List Int)) (renum : Bool) (st : St) (l : Chars) : Except Err St :=
  if isPre l then .ok st
  else if hasTag kwMODEL l then
    .ok { st with inModel := true, modelAtoms := [], modelCount := st.modelCount + 1,
                  output := st.output ++ [l] }
  else if hasTag kwENDMDL l then
    match finalizeModel target renum st.modelCount st.originalResidues st.modelAtoms with
    | .error e => .error e
    | .ok (fo, orig) =>
      .ok { st with inModel := false, originalResidues := orig,
                    output := st.output ++ fo ++ [l] }
  else if st.inModel then
    if hasTag kwATOM l || hasTag kwTER l then
      .ok { st with modelAtoms := st.modelAtoms ++ [l] }
    else if isPre l then .ok st
    else .ok { st with output := st.output ++ [l] }
  else if isPre l then .ok st
  else .ok { st with output := st.output ++ [l] }

/-- The main loop over all input lines. -/
def processLines (target : Option (List Int)) (renum : Bool) : List Chars → St → Except Err St
  | [], st => .ok st
  | l :: ls, st =>
    match step target renum st l with
    | .error e => .error e
    | .ok st' => processLines target renum ls st'

/-- The state before the first line (source lines 16-20). -/
def initSt : St := ⟨[], false, [], [], 0⟩

/-- Source line 9: parse the filter file, skipping blank lines, parsing
every other line as an integer. -/
def parseFilter : List Chars → Except Err (List Int)
  | [] => .ok []
  | l :: ls =>
    if pyStrip l = [] then parseFilter ls
    else
      match pyInt l with
      | none => .error .malformedFilterEntry
      | some r =>
        match parseFilter ls with
        | .error e => .error e
        | .ok rs => .ok (r :: rs)

/-- What a successful run writes: the output file's lines and the
`ori_resid.log` residue list (source lines 106-114). -/
structure RunResult where
  outputLines : List Chars
  logResidues : List Int
deriving DecidableEq

/-- The main loop followed by the two file writes: on success the
result carries the output file's lines and the `ori_resid.log`
contents. -/
def runWithTarget (target : Option (List Int)) (renum : Bool)
    (pdbLines : List Chars) : Except Err RunResult :=
  match processLines target renum pdbLines initSt with
  | .error e => .error e
  | .ok st => .ok ⟨st.output, st.originalResidues⟩

/-- The whole function `filter_pdb_by_residues`: parse the optional
filter file first, then run the main loop over the PDB lines, and on
success return what is written to the output file and to
`ori_resid.log`.  An `Except.error` models the Python exception
propagating before either file is opened for writing. -/
def filter_pdb_by_residues (pdbLines : List Chars) (filterLines : Option (List Chars))
    (renum : Bool) : Except Err RunResult :=
  match filterLines with
  | none => runWithTarget none renum pdbLines
  | some fl =>
    match parseFilter fl with
    | .error e => .error e
    | .ok rs => runWithTarget (some rs) renum pdbLines

/-- Derived closed form of the rewriting loop on a list of ATOM lines:
the `k`-th line gets serial `c + k` and its `newResOf` residue number. -/
def rewriteAll (renum : Bool) (orig : List Int) (c : Nat) : List Chars → List Chars
  | [] => []
  | l :: ls => rewriteLine c ((newResOf renum orig (resOf l)).getD 0) l ::
      rewriteAll renum orig (c + 1) ls

/-- A well-formed CA atom line with the given 5-character serial field
and 4-character residue field. -/
def mkCA (serial : String) (res : String) : Chars :=
  ("ATOM  " ++ serial ++ "  CA  ALA A" ++ res ++ "   0.000\n").data

def lineMODEL1 : Chars := ("MODEL     1\n").data

def lineMODEL2 : Chars := ("MODEL     2\n").data

def lineENDMDL : Chars := ("ENDMDL\n").data

/-- Two-model input: model 1 has CA residues 10, 20, 30 and model 2 has
CA residues 20, 30, 10. -/
def exPDB1 : List Chars :=
  [lineMODEL1, mkCA ("    1") ("  10"), mkCA ("    2") ("  20"), mkCA ("    3") ("  30"),
   lineENDMDL, lineMODEL2, mkCA ("    1") ("  20"), mkCA ("    2") ("  30"),
   mkCA ("    3") ("  10"), lineENDMDL]

/-- One-model input whose single CA atom line carries the 5-digit
serial 99999 in columns 6:11, residue 10. -/
def cexPDB : List Chars := [lineMODEL1, mkCA ("99999") ("  10"), lineENDMDL]

/-- A model buffer with CA atoms for residues 3, 5, 7, 10, 12. -/
def exBuf4 : List Chars :=
  [mkCA ("    1") ("   3"), mkCA ("    2") ("   5"), mkCA ("    3") ("   7"),
   mkCA ("    4") ("  10"), mkCA ("    5") ("  12")]

/-- A single CA atom line with residue 20. -/
def aLine20 : Chars := mkCA ("    1") ("  20")

/-- A single CA atom line with residue 99. -/
def aLine99 : Chars := mkCA ("    1") ("  99")

/-- A one-model input carrying REMARK, TITLE and CRYST1 lines both
outside and inside the model block. -/
def exPDB2 : List Chars :=
  [("REMARK  1 HEADER
").data, ("TITLE  EXAMPLE
").data,
   ("CRYST1    1.000
").data, lineMODEL1, ("REMARK  2 INSIDE
").data,
   mkCA ("    1") ("  10"), lineENDMDL, ("END
").data]

/-! ## Helper lemmas -/

theorem hasTag_true_elim {t : Char} {ts l : Chars} (h : hasTag (t :: ts) l = true) :
    ∃ cs, l = t :: cs ∧ hasTag ts cs = true := by
  cases l with
  | nil => simp [hasTag] at h
  | cons c cs =>
    simp only [hasTag, Bool.and_eq_true, beq_iff_eq] at h
    exact ⟨cs, by rw [h.1], h.2⟩

theorem hasTag_iff_getElem? (ts : Chars) : ∀ l : Chars,
    hasTag ts l = true ↔ ∀ i, i < ts.length → l[i]? = ts[i]? := by
  induction ts with
  | nil => intro l; simp [hasTag]
  | cons t ts ih =>
    intro l
    cases l with
    | nil =>
      simp only [hasTag, List.length_cons]
      constructor
      · intro h; exact absurd h (by simp)
      · intro h
        have := h 0 (Nat.succ_pos _)
        simp at this
    | cons c cs =>
      simp only [hasTag, Bool.and_eq_true, beq_iff_eq, List.length_cons]
      constructor
      · rintro ⟨rfl, h⟩ i hi
        cases i with
        | zero => simp
        | succ j => simpa using (ih cs).mp h j (Nat.lt_of_succ_lt_succ hi)
      · intro h
        have h0 := h 0 (Nat.succ_pos _)
        simp only [List.getElem?_cons_zero, Option.some.injEq] at h0
        refine ⟨h0.symm, (ih cs).mpr ?_⟩
        intro j hj
        simpa using h (j + 1) (Nat.succ_lt_succ hj)

theorem hasTag_false_of_ne (ts l : Chars) (i : Nat) (a : Char) (hi : i < ts.length)
    (h : l[i]? = some a) (hne : ¬ts[i]? = some a) : hasTag ts l = false := by
  cases hx : hasTag ts l with
  | false => rfl
  | true =>
    have := (hasTag_iff_getElem? ts l).mp hx i hi
    rw [h] at this
    exact absurd this.symm hne

theorem hasTag_getElem? {ts l : Chars} (h : hasTag ts l = true) (i : Nat)
    (hi : i < ts.length) : l[i]? = ts[i]? :=
  (hasTag_iff_getElem? ts l).mp h i hi

theorem headChar {ts l : Chars} {a : Char} (h : hasTag ts l = true) (i : Nat)
    (hi : i < ts.length) (ha : ts[i]? = some a) : l[i]? = some a := by
  rw [hasTag_getElem? h i hi, ha]

theorem isPre_false_of_atom {l : Chars} (h : hasTag kwATOM l = true) : isPre l = false := by
  have h0 : l[0]? = some 'A' := headChar h 0 (by decide) (by decide)
  unfold isPre
  rw [hasTag_false_of_ne kwREMARK l 0 'A' (by decide) h0 (by decide),
      hasTag_false_of_ne kwTITLE l 0 'A' (by decide) h0 (by decide),
      hasTag_false_of_ne kwCRYST1 l 0 'A' (by decide) h0 (by decide)]
  rfl

theorem isPre_false_of_ter {l : Chars} (h : hasTag kwTER l = true) : isPre l = false := by
  have h0 : l[0]? = some 'T' := headChar h 0 (by decide) (by decide)
  have h1 : l[1]? = some 'E' := headChar h 1 (by decide) (by decide)
  unfold isPre
  rw [hasTag_false_of_ne kwREMARK l 0 'T' (by decide) h0 (by decide),
      hasTag_false_of_ne kwTITLE l 1 'E' (by decide) h1 (by decide),
      hasTag_false_of_ne kwCRYST1 l 0 'T' (by decide) h0 (by decide)]
  rfl

theorem isPre_false_of_endmdl {l : Chars} (h : hasTag kwENDMDL l = true) : isPre l = false := by
  have h0 : l[0]? = some 'E' := headChar h 0 (by decide) (by decide)
  unfold isPre
  rw [hasTag_false_of_ne kwREMARK l 0 'E' (by decide) h0 (by decide),
      hasTag_false_of_ne kwTITLE l 0 'E' (by decide) h0 (by decide),
      hasTag_false_of_ne kwCRYST1 l 0 'E' (by decide) h0 (by decide)]
  rfl

theorem notModel_of_atom {l : Chars} (h : hasTag kwATOM l = true) : hasTag kwMODEL l = false :=
  hasTag_false_of_ne kwMODEL l 0 'A' (by decide) (headChar h 0 (by decide) (by decide)) (by decide)

theorem notEndmdl_of_atom {l : Chars} (h : hasTag kwATOM l = true) : hasTag kwENDMDL l = false :=
  hasTag_false_of_ne kwENDMDL l 0 'A' (by decide) (headChar h 0 (by decide) (by decide)) (by decide)

theorem notModel_of_ter {l : Chars} (h : hasTag kwTER l = true) : hasTag kwMODEL l = false :=
  hasTag_false_of_ne kwMODEL l 0 'T' (by decide) (headChar h 0 (by decide) (by decide)) (by decide)

theorem notEndmdl_of_ter {l : Chars} (h : hasTag kwTER l = true) : hasTag kwENDMDL l = false :=
  hasTag_false_of_ne kwENDMDL l 0 'T' (by decide) (headChar h 0 (by decide) (by decide)) (by decide)

theorem notModel_of_endmdl {l : Chars} (h : hasTag kwENDMDL l = true) : hasTag kwMODEL l = false :=
  hasTag_false_of_ne kwMODEL l 0 'E' (by decide) (headChar h 0 (by decide) (by decide)) (by decide)

theorem caQual_parts {target : Option (List Int)} {l : Chars} (h : caQual target l = true) :
    hasTag kwATOM l = true ∧ pyStrip (pySlice 12 16 l) = kwCA ∧
      ∃ r, pyInt (pySlice 22 26 l) = some r ∧ targMem target r = true := by
  simp only [caQual, Bool.and_eq_true, beq_iff_eq] at h
  obtain ⟨⟨h1, h2⟩, h3⟩ := h
  refine ⟨h1, h2, ?_⟩
  cases hp : pyInt (pySlice 22 26 l) with
  | none => rw [hp] at h3; simp [Option.elim] at h3
  | some r => exact ⟨r, rfl, by rw [hp] at h3; simpa [Option.elim] using h3⟩

theorem caQual_length {target : Option (List Int)} {l : Chars} (h : caQual target l = true) :
    13 ≤ l.length := by
  obtain ⟨-, h2, -⟩ := caQual_parts h
  by_contra hlen
  push_neg at hlen
  have hd : l.drop 12 = [] := List.drop_eq_nil_of_le (by omega)
  simp [pySlice, hd, pyStrip, kwCA] at h2

theorem selectCA_ok_spec {target : Option (List Int)} :
    ∀ {buf sel : List Chars} {rs : List Int}, selectCA target buf = .ok (sel, rs) →
      sel = buf.filter (caQual target) ∧ rs = sel.map resOf := by
  intro buf
  induction buf with
  | nil =>
    intro sel rs h
    simp only [selectCA, Except.ok.injEq, Prod.mk.injEq] at h
    simp [← h.1, ← h.2]
  | cons l ls ih =>
    intro sel rs h
    by_cases h1 : (hasTag kwATOM l && (pyStrip (pySlice 12 16 l) == kwCA)) = true
    · rw [selectCA, if_pos h1] at h
      split at h
      · simp at h
      · rename_i r hp
        by_cases h2 : targMem target r = true
        · rw [if_pos h2] at h
          split at h
          · simp at h
          · rename_i sel' rs' hrec
            simp only [Except.ok.injEq, Prod.mk.injEq] at h
            obtain ⟨hsel, hrs⟩ := h
            obtain ⟨ih1, ih2⟩ := ih hrec
            have hq : caQual target l = true := by
              simp only [caQual, hp, Option.elim]
              rw [h1, h2]
              rfl
            subst hsel hrs
            constructor
            · rw [List.filter_cons_of_pos hq, ih1]
            · rw [ih2]
              simp [resOf, hp]
        · rw [if_neg h2] at h
          have hq : caQual target l = false := by
            simp only [caQual, hp, Option.elim]
            rw [Bool.eq_false_iff]
            intro hx
            exact h2 (Bool.and_elim_right hx)
          obtain ⟨ih1, ih2⟩ := ih h
          exact ⟨by rw [List.filter_cons_of_neg (by simp [hq]), ih1], ih2⟩
    · rw [selectCA, if_neg h1] at h
      have hq : caQual target l = false := by
        simp only [caQual]
        rw [Bool.eq_false_iff]
        intro hx
        exact h1 (Bool.and_elim_left hx)
      obtain ⟨ih1, ih2⟩ := ih h
      exact ⟨by rw [List.filter_cons_of_neg (by simp [hq]), ih1], ih2⟩

theorem listIndex_isSome_of_mem {r : Int} :
    ∀ {ys : List Int}, r ∈ ys → (listIndex r ys).isSome = true := by
  intro ys
  induction ys with
  | nil => intro h; simp at h
  | cons y ys ih =>
    intro h
    by_cases hy : y = r
    · simp [listIndex, hy]
    · have hm : r ∈ ys := by
        rcases List.mem_cons.mp h with h' | h'
        · exact absurd h'.symm hy
        · exact h'
      simp [listIndex, hy, ih hm]

theorem renumberAtoms_ok_inv {renum : Bool} {orig : List Int} :
    ∀ {sel : List Chars} {c : Nat} {out : List Chars} {c1 : Nat},
      (∀ l ∈ sel, hasTag kwATOM l = true) →
      renumberAtoms renum orig sel c = .ok (out, c1) →
      out = rewriteAll renum orig c sel ∧ c1 = c + sel.length := by
  intro sel
  induction sel with
  | nil =>
    intro c out c1 _ h
    simp only [renumberAtoms, Except.ok.injEq, Prod.mk.injEq] at h
    simp [rewriteAll, ← h.1, ← h.2]
  | cons l ls ih =>
    intro c out c1 hAll h
    have hA : hasTag kwATOM l = true := hAll l (List.mem_cons_self l ls)
    rw [renumberAtoms, if_pos hA] at h
    split at h
    · simp at h
    · rename_i r hp
      split at h
      · simp at h
      · rename_i nr hn
        split at h
        · simp at h
        · rename_i out' c1' hrec
          simp only [Except.ok.injEq, Prod.mk.injEq] at h
          obtain ⟨hout, hc⟩ := h
          obtain ⟨ih1, ih2⟩ := ih (fun x hx => hAll x (List.mem_cons_of_mem _ hx)) hrec
          subst hout hc
          constructor
          · rw [rewriteAll, ih1]
            simp [resOf, hp, hn]
          · rw [ih2]
            simp only [List.length_cons]
            omega

theorem renumberAtoms_ok_parses {renum : Bool} {orig : List Int} :
    ∀ {sel : List Chars} {c : Nat} {out : List Chars} {c1 : Nat},
      (∀ l ∈ sel, hasTag kwATOM l = true) →
      renumberAtoms renum orig sel c = .ok (out, c1) →
      ∀ l ∈ sel, ∃ r, pyInt (pySlice 22 26 l) = some r ∧ ∃ nr, newResOf renum orig r = some nr := by
  intro sel
  induction sel with
  | nil => intro c out c1 _ _ l hl; simp at hl
  | cons l ls ih =>
    intro c out c1 hAll h
    have hA : hasTag kwATOM l = true := hAll l (List.mem_cons_self l ls)
    rw [renumberAtoms, if_pos hA] at h
    split at h
    · simp at h
    · rename_i r hp
      split at h
      · simp at h
      · rename_i nr hn
        split at h
        · simp at h
        · rename_i out' c1' hrec
          intro x hx
          rcases List.mem_cons.mp hx with hx' | hx'
          · subst hx'
            exact ⟨r, hp, nr, hn⟩
          · exact ih (fun y hy => hAll y (List.mem_cons_of_mem _ hy)) hrec x hx'

theorem renumberAtoms_ok_of {renum : Bool} {orig : List Int} :
    ∀ {sel : List Chars} (c : Nat),
      (∀ l ∈ sel, hasTag kwATOM l = true) →
      (∀ l ∈ sel, ∃ r, pyInt (pySlice 22 26 l) = some r ∧ (newResOf renum orig r).isSome = true) →
      renumberAtoms renum orig sel c = .ok (rewriteAll renum orig c sel, c + sel.length) := by
  intro sel
  induction sel with
  | nil => intro c _ _; simp [renumberAtoms, rewriteAll]
  | cons l ls ih =>
    intro c hAll hParse
    have hA : hasTag kwATOM l = true := hAll l (List.mem_cons_self l ls)
    have hAll' : ∀ y ∈ ls, hasTag kwATOM y = true :=
      fun y hy => hAll y (List.mem_cons_of_mem _ hy)
    have hParse' : ∀ y ∈ ls, ∃ r, pyInt (pySlice 22 26 y) = some r ∧
        (newResOf renum orig r).isSome = true :=
      fun y hy => hParse y (List.mem_cons_of_mem _ hy)
    obtain ⟨r, hp, hsome⟩ := hParse l (List.mem_cons_self l ls)
    obtain ⟨nr, hn⟩ := Option.isSome_iff_exists.mp hsome
    rw [renumberAtoms, if_pos hA]
    split
    · rename_i hnone
      rw [hp] at hnone
      simp at hnone
    · rename_i r' hp'
      rw [hp] at hp'
      injection hp' with hrr
      subst hrr
      split
      · rename_i hnone
        rw [hn] at hnone
        simp at hnone
      · rename_i nr' hn'
        rw [hn] at hn'
        injection hn' with hnn
        subst hnn
        split
        · rename_i e heq
          rw [ih (c + 1) hAll' hParse'] at heq
          simp at heq
        · rename_i out' c1' heq
          rw [ih (c + 1) hAll' hParse'] at heq
          simp only [Except.ok.injEq, Prod.mk.injEq] at heq
          obtain ⟨ho, hc⟩ := heq
          simp only [Except.ok.injEq, Prod.mk.injEq, rewriteAll]
          constructor
          · rw [← ho]
            simp [resOf, hp, hn]
          · rw [← hc]
            simp only [List.length_cons]
            omega

theorem renumberAtoms_lookup_error {orig : List Int} :
    ∀ {sel : List Chars} (c : Nat),
      (∀ l ∈ sel, hasTag kwATOM l = true) →
      (∀ l ∈ sel, (pyInt (pySlice 22 26 l)).isSome = true) →
      (∃ l ∈ sel, listIndex (resOf l) orig = none) →
      renumberAtoms true orig sel c = .error .residueLookup := by
  intro sel
  induction sel with
  | nil => intro c _ _ hbad; simp at hbad
  | cons l ls ih =>
    intro c hAll hParse hbad
    have hA : hasTag kwATOM l = true := hAll l (List.mem_cons_self l ls)
    obtain ⟨r, hp⟩ := Option.isSome_iff_exists.mp (hParse l (List.mem_cons_self l ls))
    have hres : resOf l = r := by simp [resOf, hp]
    rw [renumberAtoms, if_pos hA]
    split
    · rename_i hnone
      rw [hp] at hnone
      simp at hnone
    · rename_i r' hp'
      rw [hp] at hp'
      injection hp' with hrr
      subst hrr
      by_cases hidx : listIndex r orig = none
      · split
        · rfl
        · rename_i nr hn
          simp [newResOf, hidx] at hn
      · have hrec : renumberAtoms true orig ls (c + 1) = .error .residueLookup := by
          apply ih (c + 1) (fun y hy => hAll y (List.mem_cons_of_mem _ hy))
            (fun y hy => hParse y (List.mem_cons_of_mem _ hy))
          obtain ⟨x, hx, hxnone⟩ := hbad
          rcases List.mem_cons.mp hx with hx' | hx'
          · subst hx'
            rw [hres] at hxnone
            exact absurd hxnone hidx
          · exact ⟨x, hx', hxnone⟩
        split
        · rename_i hn
          simp [newResOf] at hn
          exact absurd hn hidx
        · rename_i nr hn
          split
          · rename_i e heq
            rw [hrec] at heq
            injection heq with he
            rw [he]
          · rename_i out' c1' heq
            rw [hrec] at heq
            simp at heq

theorem rewriteAll_length {renum : Bool} {orig : List Int} :
    ∀ (sel : List Chars) (c : Nat), (rewriteAll renum orig c sel).length = sel.length := by
  intro sel
  induction sel with
  | nil => intro c; simp [rewriteAll]
  | cons l ls ih => intro c; simp [rewriteAll, ih]

theorem rewriteAll_getElem? {renum : Bool} {orig : List Int} :
    ∀ (sel : List Chars) (c k : Nat),
      (rewriteAll renum orig c sel)[k]? =
        (sel[k]?).map (fun l => rewriteLine (c + k) ((newResOf renum orig (resOf l)).getD 0) l) := by
  intro sel
  induction sel with
  | nil => intro c k; simp [rewriteAll]
  | cons l ls ih =>
    intro c k
    cases k with
    | zero => simp [rewriteAll]
    | succ j =>
      simp only [rewriteAll, List.getElem?_cons_succ, ih (c + 1) j]
      have : c + 1 + j = c + (j + 1) := by omega
      rw [this]

theorem rewriteAll_mem {renum : Bool} {orig : List Int} :
    ∀ {sel : List Chars} {c : Nat} {l' : Chars}, l' ∈ rewriteAll renum orig c sel →
      ∃ l ∈ sel, ∃ c' r, l' = rewriteLine c' r l := by
  intro sel
  induction sel with
  | nil => intro c l' h; simp [rewriteAll] at h
  | cons l ls ih =>
    intro c l' h
    rcases List.mem_cons.mp h with h' | h'
    · exact ⟨l, List.mem_cons_self l ls, _, _, h'⟩
    · obtain ⟨x, hx, c', r, hr⟩ := ih h'
      exact ⟨x, List.mem_cons_of_mem _ hx, c', r, hr⟩

theorem updSerial_length {c : Nat} {l : Chars} (h11 : 11 ≤ l.length)
    (h5 : (natChars c).length ≤ 5) : (updSerial c l).length = l.length := by
  simp only [updSerial, List.length_append, List.length_take, fmtNat, padLeft,
    List.length_replicate, List.length_drop]
  omega

theorem updResidue_length {r : Int} {l : Chars} (h26 : 26 ≤ l.length)
    (h4 : (intChars r).length ≤ 4) : (updResidue r l).length = l.length := by
  simp only [updResidue, List.length_append, List.length_take, fmtInt, padLeft,
    List.length_replicate, List.length_drop]
  omega

theorem updSerial_getElem?_low {c : Nat} {l : Chars} {i : Nat} (hi : i < 6)
    (hlen : i < l.length) : (updSerial c l)[i]? = l[i]? := by
  rw [updSerial,
      List.getElem?_append_left (by simp only [List.length_append, List.length_take]; omega),
      List.getElem?_append_left (by rw [List.length_take]; omega),
      List.getElem?_take_of_lt hi]

theorem updSerial_getElem?_high {c : Nat} {l : Chars} {i : Nat} (hi : 11 ≤ i)
    (h11 : 11 ≤ l.length) (h5 : (natChars c).length ≤ 5) :
    (updSerial c l)[i]? = l[i]? := by
  have h01 : (l.take 6 ++ fmtNat 5 c).length = 11 := by
    simp only [List.length_append, List.length_take, fmtNat, padLeft, List.length_replicate]
    omega
  rw [updSerial, List.getElem?_append_right (by rw [h01]; omega), h01, List.getElem?_drop]
  congr 1
  omega

theorem updResidue_getElem?_low {r : Int} {l : Chars} {i : Nat} (hi : i < 22)
    (hlen : i < l.length) : (updResidue r l)[i]? = l[i]? := by
  rw [updResidue,
      List.getElem?_append_left (by simp only [List.length_append, List.length_take]; omega),
      List.getElem?_append_left (by rw [List.length_take]; omega),
      List.getElem?_take_of_lt hi]

theorem updResidue_getElem?_high {r : Int} {l : Chars} {i : Nat} (hi : 26 ≤ i)
    (h26 : 26 ≤ l.length) (h4 : (intChars r).length ≤ 4) :
    (updResidue r l)[i]? = l[i]? := by
  have h01 : (l.take 22 ++ fmtInt 4 r).length = 26 := by
    simp only [List.length_append, List.length_take, fmtInt, padLeft, List.length_replicate]
    omega
  rw [updResidue, List.getElem?_append_right (by rw [h01]; omega), h01, List.getElem?_drop]
  congr 1
  omega

theorem rewriteLine_length {c : Nat} {r : Int} {l : Chars} (h26 : 26 ≤ l.length)
    (h5 : (natChars c).length ≤ 5) (h4 : (intChars r).length ≤ 4) :
    (rewriteLine c r l).length = l.length := by
  rw [rewriteLine, updResidue_length (by rw [updSerial_length (by omega) h5]; omega) h4,
      updSerial_length (by omega) h5]

theorem rewriteLine_getElem?_low {c : Nat} {r : Int} {l : Chars} {i : Nat} (hi : i < 6)
    (hlen : i < l.length) : (rewriteLine c r l)[i]? = l[i]? := by
  have h2 : i < (updSerial c l).length := by
    simp only [updSerial, List.length_append, List.length_take, fmtNat, padLeft,
      List.length_replicate, List.length_drop]
    omega
  rw [rewriteLine, updResidue_getElem?_low (by omega) h2, updSerial_getElem?_low hi hlen]

theorem rewriteLine_getElem? {c : Nat} {r : Int} {l : Chars} {i : Nat} (h26 : 26 ≤ l.length)
    (h5 : (natChars c).length ≤ 5) (h4 : (intChars r).length ≤ 4)
    (hout : i < 6 ∨ (11 ≤ i ∧ i < 22) ∨ 26 ≤ i) : (rewriteLine c r l)[i]? = l[i]? := by
  have hs : (updSerial c l).length = l.length := updSerial_length (by omega) h5
  rcases hout with hi | hi | hi
  · exact rewriteLine_getElem?_low hi (by omega)
  · rw [rewriteLine, updResidue_getElem?_low hi.2 (by rw [hs]; omega),
        updSerial_getElem?_high hi.1 (by omega) h5]
  · rw [rewriteLine, updResidue_getElem?_high hi (by rw [hs]; omega) h4,
        updSerial_getElem?_high (by omega) (by omega) h5]

theorem hasTag_atom_rewriteLine {c : Nat} {r : Int} {l : Chars}
    (h : hasTag kwATOM l = true) (hlen : 13 ≤ l.length) :
    hasTag kwATOM (rewriteLine c r l) = true := by
  rw [hasTag_iff_getElem?]
  intro i hi
  have hi4 : i < 4 := by simpa [kwATOM] using hi
  rw [rewriteLine_getElem?_low (by omega) (by omega)]
  exact hasTag_getElem? h i hi

theorem hasTag_ter_terLine (c : Nat) (last : Chars) :
    hasTag kwTER (terLine c last) = true := rfl

theorem addTER_mem {c : Nat} {flt : List Chars} {l : Chars} (h : l ∈ addTER c flt) :
    l ∈ flt ∨ ∃ last, flt.getLast? = some last ∧ l = terLine c last := by
  rw [addTER] at h
  split at h
  · exact Or.inl h
  · rename_i last hlast
    split at h
    · rcases List.mem_append.mp h with h' | h'
      · exact Or.inl h'
      · exact Or.inr ⟨last, hlast, by simpa using h'⟩
    · exact Or.inl h

theorem addTER_of_last_atom {c : Nat} {flt : List Chars} {last : Chars}
    (h : flt.getLast? = some last) (hA : hasTag kwATOM last = true) :
    addTER c flt = flt ++ [terLine c last] := by
  rw [addTER, h]
  simp [hA]

theorem finalizeModel_err {target : Option (List Int)} {renum : Bool} {mc : Nat}
    {origIn : List Int} {buf : List Chars} {e : Err}
    (hsel : selectCA target buf = .error e) :
    finalizeModel target renum mc origIn buf = .error e := by
  rw [finalizeModel, hsel]

theorem finalizeModel_eq {target : Option (List Int)} {renum : Bool} {mc : Nat}
    {origIn : List Int} {buf sel : List Chars} {rs : List Int}
    (hsel : selectCA target buf = .ok (sel, rs)) :
    finalizeModel target renum mc origIn buf =
      match renumberAtoms renum (if mc = 1 then rs else origIn) sel 1 with
      | .error e => .error e
      | .ok (flt, counter) =>
        .ok (addTER counter flt, if mc = 1 then rs else origIn) := by
  rw [finalizeModel, hsel]

theorem finalizeModel_ok_inv {target : Option (List Int)} {renum : Bool} {mc : Nat}
    {origIn : List Int} {buf out : List Chars} {orig : List Int}
    (h : finalizeModel target renum mc origIn buf = .ok (out, orig)) :
    ∃ sel rs, selectCA target buf = .ok (sel, rs) ∧
      orig = (if mc = 1 then rs else origIn) ∧
      ∃ flt counter, renumberAtoms renum orig sel 1 = .ok (flt, counter) ∧
        out = addTER counter flt := by
  cases hsel : selectCA target buf with
  | error e =>
    rw [finalizeModel_err hsel] at h
    simp at h
  | ok p =>
    obtain ⟨sel, rs⟩ := p
    rw [finalizeModel_eq hsel] at h
    cases hren : renumberAtoms renum (if mc = 1 then rs else origIn) sel 1 with
    | error e =>
      rw [hren] at h
      have h' : (Except.error e : Except Err (List Chars × List Int)) = .ok (out, orig) := h
      simp at h'
    | ok q =>
      obtain ⟨flt, counter⟩ := q
      rw [hren] at h
      have h' : (Except.ok (addTER counter flt, if mc = 1 then rs else origIn) :
          Except Err (List Chars × List Int)) = .ok (out, orig) := h
      simp only [Except.ok.injEq, Prod.mk.injEq] at h'
      obtain ⟨ho, horig⟩ := h'
      subst ho
      subst horig
      exact ⟨sel, rs, rfl, rfl, flt, counter, hren, rfl⟩

theorem selectCA_all_atom {target : Option (List Int)} {buf sel : List Chars} {rs : List Int}
    (hsel : selectCA target buf = .ok (sel, rs)) :
    ∀ x ∈ sel, hasTag kwATOM x = true := by
  obtain ⟨hfil, -⟩ := selectCA_ok_spec hsel
  intro x hx
  rw [hfil] at hx
  exact (caQual_parts (List.mem_filter.mp hx).2).1

theorem finalizeModel_first_ok {target : Option (List Int)} {renum : Bool}
    {origIn : List Int} {buf sel : List Chars} {rs : List Int}
    (hsel : selectCA target buf = .ok (sel, rs)) :
    finalizeModel target renum 1 origIn buf =
      .ok (addTER (1 + sel.length) (rewriteAll renum rs 1 sel), rs) := by
  obtain ⟨hfil, hmap⟩ := selectCA_ok_spec hsel
  have hAll : ∀ x ∈ sel, hasTag kwATOM x = true := selectCA_all_atom hsel
  have hParse : ∀ x ∈ sel, ∃ r, pyInt (pySlice 22 26 x) = some r ∧
      (newResOf renum rs r).isSome = true := by
    intro x hx
    have hq := (List.mem_filter.mp (hfil ▸ hx)).2
    obtain ⟨-, -, r, hp, -⟩ := caQual_parts hq
    refine ⟨r, hp, ?_⟩
    cases renum with
    | false => simp [newResOf]
    | true =>
      have hmem : r ∈ rs := by
        rw [hmap]
        exact List.mem_map.mpr ⟨x, hx, by simp [resOf, hp]⟩
      obtain ⟨i, hi⟩ := Option.isSome_iff_exists.mp (listIndex_isSome_of_mem hmem)
      simp [newResOf, hi]
  have hone : (if (1 : Nat) = 1 then rs else origIn) = rs := if_pos rfl
  rw [finalizeModel_eq hsel, hone, renumberAtoms_ok_of 1 hAll hParse]

theorem finalizeModel_ok_no_pre {target : Option (List Int)} {renum : Bool} {mc : Nat}
    {origIn : List Int} {buf out : List Chars} {orig : List Int}
    (h : finalizeModel target renum mc origIn buf = .ok (out, orig)) :
    ∀ x ∈ out, isPre x = false := by
  obtain ⟨sel, rs, hsel, horig, flt, counter, hren, hout⟩ := finalizeModel_ok_inv h
  obtain ⟨hfil, -⟩ := selectCA_ok_spec hsel
  have hAll : ∀ x ∈ sel, hasTag kwATOM x = true := selectCA_all_atom hsel
  obtain ⟨hflt, -⟩ := renumberAtoms_ok_inv hAll hren
  intro x hx
  rw [hout] at hx
  rcases addTER_mem hx with hx' | ⟨last, -, rfl⟩
  · rw [hflt] at hx'
    obtain ⟨y, hy, c', r', rfl⟩ := rewriteAll_mem hx'
    have hq := (List.mem_filter.mp (hfil ▸ hy)).2
    exact isPre_false_of_atom (hasTag_atom_rewriteLine (caQual_parts hq).1 (caQual_length hq))
  · exact isPre_false_of_ter (hasTag_ter_terLine counter last)

theorem step_pre {target : Option (List Int)} {renum : Bool} {st : St} {l : Chars}
    (h : isPre l = true) : step target renum st l = .ok st := by
  rw [step, if_pos h]

theorem step_model {target : Option (List Int)} {renum : Bool} {st : St} {l : Chars}
    (hn : isPre l = false) (hm : hasTag kwMODEL l = true) :
    step target renum st l =
      .ok { st with inModel := true, modelAtoms := [], modelCount := st.modelCount + 1, output := st.output ++ [l] } := by
  rw [step, if_neg (by simp [hn]), if_pos hm]

theorem step_endmdl {target : Option (List Int)} {renum : Bool} {st : St} {l : Chars}
    (hn : isPre l = false) (hm : hasTag kwMODEL l = false) (he : hasTag kwENDMDL l = true) :
    step target renum st l =
      match finalizeModel target renum st.modelCount st.originalResidues st.modelAtoms with
      | .error e => .error e
      | .ok (fo, orig) =>
        .ok { st with inModel := false, originalResidues := orig, output := st.output ++ fo ++ [l] } := by
  rw [step, if_neg (by simp [hn]), if_neg (by simp [hm]), if_pos he]

theorem step_inmodel_buffer {target : Option (List Int)} {renum : Bool} {st : St} {l : Chars}
    (hn : isPre l = false) (hm : hasTag kwMODEL l = false) (he : hasTag kwENDMDL l = false)
    (hin : st.inModel = true) (hat : (hasTag kwATOM l || hasTag kwTER l) = true) :
    step target renum st l = .ok { st with modelAtoms := st.modelAtoms ++ [l] } := by
  rw [step, if_neg (by simp [hn]), if_neg (by simp [hm]), if_neg (by simp [he]),
      if_pos hin, if_pos hat]

theorem step_inmodel_pass {target : Option (List Int)} {renum : Bool} {st : St} {l : Chars}
    (hn : isPre l = false) (hm : hasTag kwMODEL l = false) (he : hasTag kwENDMDL l = false)
    (hin : st.inModel = true) (hat : (hasTag kwATOM l || hasTag kwTER l) = false) :
    step target renum st l = .ok { st with output := st.output ++ [l] } := by
  rw [step, if_neg (by simp [hn]), if_neg (by simp [hm]), if_neg (by simp [he]),
      if_pos hin, if_neg (by simp [hat]), if_neg (by simp [hn])]

theorem step_outside {target : Option (List Int)} {renum : Bool} {st : St} {l : Chars}
    (hn : isPre l = false) (hm : hasTag kwMODEL l = false) (he : hasTag kwENDMDL l = false)
    (hin : st.inModel = false) :
    step target renum st l = .ok { st with output := st.output ++ [l] } := by
  rw [step, if_neg (by simp [hn]), if_neg (by simp [hm]), if_neg (by simp [he]),
      if_neg (by simp [hin]), if_neg (by simp [hn])]

theorem step_cases {target : Option (List Int)} {renum : Bool} {st st' : St} {l : Chars}
    (h : step target renum st l = .ok st') :
    (isPre l = true ∧ st' = st) ∨
    (isPre l = false ∧ hasTag kwMODEL l = true ∧
      st' = { st with inModel := true, modelAtoms := [], modelCount := st.modelCount + 1, output := st.output ++ [l] }) ∨
    (isPre l = false ∧ hasTag kwENDMDL l = true ∧
      ∃ fo orig, finalizeModel target renum st.modelCount st.originalResidues st.modelAtoms = .ok (fo, orig) ∧
        st' = { st with inModel := false, originalResidues := orig, output := st.output ++ fo ++ [l] }) ∨
    (isPre l = false ∧ (hasTag kwATOM l || hasTag kwTER l) = true ∧ st.inModel = true ∧
      st' = { st with modelAtoms := st.modelAtoms ++ [l] }) ∨
    (isPre l = false ∧ st' = { st with output := st.output ++ [l] }) := by
  by_cases hp : isPre l = true
  · rw [step_pre hp] at h
    injection h with h
    exact Or.inl ⟨hp, h.symm⟩
  · have hn : isPre l = false := by rwa [Bool.not_eq_true] at hp
    by_cases hm : hasTag kwMODEL l = true
    · rw [step_model hn hm] at h
      injection h with h
      exact Or.inr (Or.inl ⟨hn, hm, h.symm⟩)
    · have hm' : hasTag kwMODEL l = false := by rwa [Bool.not_eq_true] at hm
      by_cases he : hasTag kwENDMDL l = true
      · rw [step_endmdl hn hm' he] at h
        cases hfin : finalizeModel target renum st.modelCount st.originalResidues st.modelAtoms with
        | error e =>
          rw [hfin] at h
          have h' : (Except.error e : Except Err St) = .ok st' := h
          simp at h'
        | ok p =>
          obtain ⟨fo, orig⟩ := p
          rw [hfin] at h
          have h' : (Except.ok { st with inModel := false, originalResidues := orig, output := st.output ++ fo ++ [l] } : Except Err St) = .ok st' := h
          injection h' with h'
          exact Or.inr (Or.inr (Or.inl ⟨hn, he, fo, orig, rfl, h'.symm⟩))
      · have he' : hasTag kwENDMDL l = false := by rwa [Bool.not_eq_true] at he
        by_cases hin : st.inModel = true
        · by_cases hat : (hasTag kwATOM l || hasTag kwTER l) = true
          · rw [step_inmodel_buffer hn hm' he' hin hat] at h
            injection h with h
            exact Or.inr (Or.inr (Or.inr (Or.inl ⟨hn, hat, hin, h.symm⟩)))
          · have hat' := Bool.eq_false_iff.mpr hat
            rw [step_inmodel_pass hn hm' he' hin hat'] at h
            injection h with h
            exact Or.inr (Or.inr (Or.inr (Or.inr ⟨hn, h.symm⟩)))
        · have hin' : st.inModel = false := by rwa [Bool.not_eq_true] at hin
          rw [step_outside hn hm' he' hin'] at h
          injection h with h
          exact Or.inr (Or.inr (Or.inr (Or.inr ⟨hn, h.symm⟩)))

theorem step_no_pre {target : Option (List Int)} {renum : Bool} {st st' : St} {l : Chars}
    (h : step target renum st l = .ok st')
    (ho : ∀ x ∈ st.output, isPre x = false) (hb : ∀ x ∈ st.modelAtoms, isPre x = false) :
    (∀ x ∈ st'.output, isPre x = false) ∧ (∀ x ∈ st'.modelAtoms, isPre x = false) := by
  rcases step_cases h with ⟨-, rfl⟩ | ⟨hn, -, rfl⟩ |
      ⟨hn, -, fo, orig, hfin, rfl⟩ | ⟨hn, -, -, rfl⟩ | ⟨hn, rfl⟩
  · exact ⟨ho, hb⟩
  · refine ⟨?_, by simp⟩
    intro x hx
    rcases List.mem_append.mp hx with hx' | hx'
    · exact ho x hx'
    · rw [List.mem_singleton.mp hx']
      exact hn
  · refine ⟨?_, hb⟩
    intro x hx
    simp only [List.append_assoc, List.mem_append, List.mem_singleton] at hx
    rcases hx with hx' | hx' | hx'
    · exact ho x hx'
    · exact finalizeModel_ok_no_pre hfin x hx'
    · rw [hx']
      exact hn
  · refine ⟨ho, ?_⟩
    intro x hx
    rcases List.mem_append.mp hx with hx' | hx'
    · exact hb x hx'
    · rw [List.mem_singleton.mp hx']
      exact hn
  · refine ⟨?_, hb⟩
    intro x hx
    rcases List.mem_append.mp hx with hx' | hx'
    · exact ho x hx'
    · rw [List.mem_singleton.mp hx']
      exact hn

theorem processLines_no_pre {target : Option (List Int)} {renum : Bool} :
    ∀ {lines : List Chars} {st st' : St},
      processLines target renum lines st = .ok st' →
      (∀ x ∈ st.output, isPre x = false) → (∀ x ∈ st.modelAtoms, isPre x = false) →
      (∀ x ∈ st'.output, isPre x = false) ∧ (∀ x ∈ st'.modelAtoms, isPre x = false) := by
  intro lines
  induction lines with
  | nil =>
    intro st st' h ho hb
    have h' : (Except.ok st : Except Err St) = .ok st' := h
    injection h' with h'
    subst h'
    exact ⟨ho, hb⟩
  | cons l ls ih =>
    intro st st' h ho hb
    rw [processLines] at h
    cases hstep : step target renum st l with
    | error e =>
      rw [hstep] at h
      have h' : (Except.error e : Except Err St) = .ok st' := h
      simp at h'
    | ok st1 =>
      rw [hstep] at h
      have h' : processLines target renum ls st1 = .ok st' := h
      obtain ⟨ho1, hb1⟩ := step_no_pre hstep ho hb
      exact ih h' ho1 hb1

theorem step_orig_const {target : Option (List Int)} {renum : Bool} {st st' : St} {l : Chars}
    (h : step target renum st l = .ok st') (hc : st.modelCount ≠ 1) :
    st'.originalResidues = st.originalResidues := by
  rcases step_cases h with ⟨-, rfl⟩ | ⟨-, -, rfl⟩ |
      ⟨-, -, fo, orig, hfin, rfl⟩ | ⟨-, -, -, rfl⟩ | ⟨-, rfl⟩
  · rfl
  · rfl
  · obtain ⟨sel, rs, -, horig, -⟩ := finalizeModel_ok_inv hfin
    simpa [if_neg hc] using horig
  · rfl
  · rfl

theorem step_no_model_inv {target : Option (List Int)} {renum : Bool} {st st' : St} {l : Chars}
    (h : step target renum st l = .ok st') (hm : hasTag kwMODEL l = false)
    (hc : st.modelCount = 0) (ho : st.originalResidues = []) :
    st'.modelCount = 0 ∧ st'.originalResidues = [] := by
  rcases step_cases h with ⟨-, rfl⟩ | ⟨-, hmod, rfl⟩ |
      ⟨-, -, fo, orig, hfin, rfl⟩ | ⟨-, -, -, rfl⟩ | ⟨-, rfl⟩
  · exact ⟨hc, ho⟩
  · rw [hm] at hmod
    simp at hmod
  · refine ⟨hc, ?_⟩
    obtain ⟨sel, rs, -, horig, -⟩ := finalizeModel_ok_inv hfin
    rw [horig, if_neg (by omega : ¬st.modelCount = 1), ho]
  · exact ⟨hc, ho⟩
  · exact ⟨hc, ho⟩

theorem processLines_no_model {target : Option (List Int)} {renum : Bool} :
    ∀ {lines : List Chars} {st st' : St},
      processLines target renum lines st = .ok st' →
      (∀ l ∈ lines, hasTag kwMODEL l = false) →
      st.modelCount = 0 → st.originalResidues = [] →
      st'.modelCount = 0 ∧ st'.originalResidues = [] := by
  intro lines
  induction lines with
  | nil =>
    intro st st' h _ hc ho
    have h' : (Except.ok st : Except Err St) = .ok st' := h
    injection h' with h'
    subst h'
    exact ⟨hc, ho⟩
  | cons l ls ih =>
    intro st st' h hm hc ho
    rw [processLines] at h
    cases hstep : step target renum st l with
    | error e =>
      rw [hstep] at h
      have h' : (Except.error e : Except Err St) = .ok st' := h
      simp at h'
    | ok st1 =>
      rw [hstep] at h
      have h' : processLines target renum ls st1 = .ok st' := h
      obtain ⟨hc1, ho1⟩ := step_no_model_inv hstep (hm l (List.mem_cons_self l ls)) hc ho
      exact ih h' (fun y hy => hm y (List.mem_cons_of_mem _ hy)) hc1 ho1

theorem parseFilter_error_of_bad :
    ∀ {fl : List Chars}, (∃ l ∈ fl, ¬pyStrip l = [] ∧ pyInt l = none) →
      parseFilter fl = .error .malformedFilterEntry := by
  intro fl
  induction fl with
  | nil => intro h; simp at h
  | cons l ls ih =>
    intro hbad
    by_cases hb : pyStrip l = []
    · rw [parseFilter, if_pos hb]
      apply ih
      obtain ⟨x, hx, hx1, hx2⟩ := hbad
      rcases List.mem_cons.mp hx with hx' | hx'
      · subst hx'
        exact absurd hb hx1
      · exact ⟨x, hx', hx1, hx2⟩
    · rw [parseFilter, if_neg hb]
      cases hp : pyInt l with
      | none => rfl
      | some r =>
        have hrec : parseFilter ls = .error .malformedFilterEntry := by
          apply ih
          obtain ⟨x, hx, hx1, hx2⟩ := hbad
          rcases List.mem_cons.mp hx with hx' | hx'
          · subst hx'
            rw [hp] at hx2
            simp at hx2
          · exact ⟨x, hx', hx1, hx2⟩
        rw [hrec]

theorem parseFilter_ok_of_good :
    ∀ {fl : List Chars}, (∀ l ∈ fl, ¬pyStrip l = [] → (pyInt l).isSome = true) →
      parseFilter fl =
        .ok ((fl.filter (fun l => !(pyStrip l == []))).map (fun l => (pyInt l).getD 0)) := by
  intro fl
  induction fl with
  | nil => intro _; rfl
  | cons l ls ih =>
    intro hgood
    have hrec := ih (fun y hy => hgood y (List.mem_cons_of_mem _ hy))
    by_cases hb : pyStrip l = []
    · rw [parseFilter, if_pos hb, hrec]
      rw [List.filter_cons_of_neg (by simp [hb])]
    · obtain ⟨r, hp⟩ := Option.isSome_iff_exists.mp (hgood l (List.mem_cons_self l ls) hb)
      rw [parseFilter, if_neg hb, hp, hrec]
      show (Except.ok (r :: (ls.filter (fun l => !(pyStrip l == []))).map
        (fun l => (pyInt l).getD 0)) : Except Err (List Int)) = _
      rw [List.filter_cons_of_pos (by simp [hb])]
      simp [hp]

theorem runWithTarget_ok_inv {target : Option (List Int)} {renum : Bool}
    {pdb : List Chars} {r : RunResult} (h : runWithTarget target renum pdb = .ok r) :
    ∃ st, processLines target renum pdb initSt = .ok st ∧
      r.outputLines = st.output ∧ r.logResidues = st.originalResidues := by
  rw [runWithTarget] at h
  cases hp : processLines target renum pdb initSt with
  | error e =>
    rw [hp] at h
    have h' : (Except.error e : Except Err RunResult) = .ok r := h
    simp at h'
  | ok st =>
    rw [hp] at h
    have h' : (Except.ok (⟨st.output, st.originalResidues⟩ : RunResult) :
        Except Err RunResult) = .ok r := h
    injection h' with h'
    subst h'
    exact ⟨st, rfl, rfl, rfl⟩

theorem filter_run_ok_inv {pdb : List Chars} {filterLines : Option (List Chars)}
    {renum : Bool} {r : RunResult}
    (h : filter_pdb_by_residues pdb filterLines renum = .ok r) :
    ∃ target, runWithTarget target renum pdb = .ok r := by
  cases filterLines with
  | none => exact ⟨none, h⟩
  | some fl =>
    rw [filter_pdb_by_residues] at h
    cases hp : parseFilter fl with
    | error e =>
      rw [hp] at h
      have h' : (Except.error e : Except Err RunResult) = .ok r := h
      simp at h'
    | ok rs =>
      rw [hp] at h
      exact ⟨some rs, h⟩

theorem run_filter_error {fl : List Chars} {pdb : List Chars} {renum : Bool} {e : Err}
    (h : parseFilter fl = .error e) :
    filter_pdb_by_residues pdb (some fl) renum = .error e := by
  rw [filter_pdb_by_residues, h]

/-! ## Claim theorems -/

/-- Claim C2, counterexample to the literal reading: taking the claimed
column ranges 7-11 and 23-26 as 0-indexed half-open slices of the line,
index 6 lies outside both ranges, yet the run on `cexPDB` rewrites its
atom line so that the character at index 6 changes from the source's
digit 9 (of serial 99999) to a space (of the new serial 1): the code
rewrites the 0-indexed slices 6:11 and 22:26. -/
theorem c2_counterexample :
    ¬(7 ≤ 6 ∧ 6 < 11 ∨ 23 ≤ 6 ∧ 6 < 26) ∧
    ((filter_pdb_by_residues cexPDB none false).toOption.bind
      (fun r => r.outputLines[1]?.bind (fun l => l[6]?))) = some ' ' ∧
    (cexPDB[1]?.bind (fun l => l[6]?)) = some '9' := by
  decide

/-- Claim C2 (amended): the serial and residue column ranges are the
1-based inclusive PDB columns 7-11 and 23-26, that is the 0-indexed
half-open slices 6:11 and 22:26 rewritten by the code; for a source
line of at least 26 characters whose formatted serial occupies at most
5 characters and formatted residue number at most 4, every character of
the rewritten line outside those two slices is byte-identical to the
source line, and the byte count is preserved. -/
theorem c2_column_preservation (l : Chars) (c : Nat) (r : Int)
    (h26 : 26 ≤ l.length) (h5 : (natChars c).length ≤ 5) (h4 : (intChars r).length ≤ 4) :
    (rewriteLine c r l).length = l.length ∧
    ∀ i : Nat, ¬(6 ≤ i ∧ i < 11) → ¬(22 ≤ i ∧ i < 26) → (rewriteLine c r l)[i]? = l[i]? := by
  refine ⟨rewriteLine_length h26 h5 h4, ?_⟩
  intro i hi1 hi2
  exact rewriteLine_getElem? h26 h5 h4 (by omega)

theorem c2_witness :
    (rewriteLine 1 1 (mkCA ("99999") ("  10"))).length = (mkCA ("99999") ("  10")).length ∧
    (rewriteLine 1 1 (mkCA ("99999") ("  10")))[0]? = (mkCA ("99999") ("  10"))[0]? := by
  obtain ⟨h1, h2⟩ := c2_column_preservation (mkCA ("99999") ("  10")) 1 1
    (by decide) (by decide) (by decide)
  exact ⟨h1, h2 0 (by decide) (by decide)⟩

/-- Claim C4: a buffered record is selected iff it has tag ATOM, its
atom-name field trimmed of whitespace equals CA, and either no target
set was given (all alpha-carbons kept) or its parsed residue ID is a
member of the target set; the selection is the in-order filter of the
buffer, so non-qualifying buffered lines are discarded; concretely,
target set containing 5 and 10 against CA residues 3, 5, 7, 10, 12
finalizes to exactly two rewritten atom lines with residues 5 and 10 in
that order plus one TER record. -/
theorem c4_selection :
    (∀ (target : Option (List Int)) (buf sel : List Chars) (rs : List Int),
      selectCA target buf = .ok (sel, rs) → sel = buf.filter (caQual target)) ∧
    (∀ (target : Option (List Int)) (l : Chars),
      caQual target l = true ↔ hasTag kwATOM l = true ∧ pyStrip (pySlice 12 16 l) = kwCA ∧
        ∃ r, pyInt (pySlice 22 26 l) = some r ∧
          (target = none ∨ ∃ ts, target = some ts ∧ ts.contains r = true)) ∧
    ((finalizeModel (some [5, 10]) false 1 [] exBuf4).toOption.map
      (fun p => (p.1.length,
        p.1.filterMap (fun l => if hasTag kwATOM l then pyInt (pySlice 22 26 l) else none),
        hasTag kwTER (p.1.getLast?.getD []))) = some (3, [5, 10], true)) := by
  refine ⟨?_, ?_, by decide⟩
  · intro target buf sel rs h
    exact (selectCA_ok_spec h).1
  · intro target l
    constructor
    · intro h
      obtain ⟨h1, h2, r, hp, hm⟩ := caQual_parts h
      refine ⟨h1, h2, r, hp, ?_⟩
      cases target with
      | none => exact Or.inl rfl
      | some ts => exact Or.inr ⟨ts, rfl, by simpa [targMem] using hm⟩
    · rintro ⟨h1, h2, r, hp, hm⟩
      have hb : (pyStrip (pySlice 12 16 l) == kwCA) = true := beq_iff_eq.mpr h2
      have hm' : targMem target r = true := by
        rcases hm with rfl | ⟨ts, rfl, hts⟩
        · rfl
        · simpa [targMem] using hts
      simp only [caQual, hp, Option.elim]
      rw [h1, hb, hm']
      rfl

theorem c4_witness :
    ∃ sel rs, selectCA (some [5, 10]) exBuf4 = .ok (sel, rs) ∧
      sel = exBuf4.filter (caQual (some [5, 10])) := by
  cases hok : selectCA (some [5, 10]) exBuf4 with
  | error e => cases e <;> exact absurd hok (by decide)
  | ok p =>
    obtain ⟨sel, rs⟩ := p
    exact ⟨sel, rs, rfl, c4_selection.1 (some [5, 10]) exBuf4 sel rs hok⟩

/-- Claim C7: blank filter-file lines are skipped and every non-blank
line is parsed as an integer into the target set (shown by the closed
form of the parser on well-formed files); when some non-blank line does
not parse as an integer, the run fails with the filter parse error
whatever the PDB lines and renumber flag are, and the failing result
does not depend on the PDB input at all (the PDB file is not consulted
and, the result being an error, neither output nor log is produced). -/
theorem c7_filter_parsing :
    (∀ fl : List Chars, (∃ l ∈ fl, ¬pyStrip l = [] ∧ pyInt l = none) →
      ∀ (pdb pdb' : List Chars) (renum renum' : Bool),
        filter_pdb_by_residues pdb (some fl) renum = .error .malformedFilterEntry ∧
        filter_pdb_by_residues pdb (some fl) renum =
          filter_pdb_by_residues pdb' (some fl) renum') ∧
    (∀ fl : List Chars, (∀ l ∈ fl, ¬pyStrip l = [] → (pyInt l).isSome = true) →
      parseFilter fl =
        .ok ((fl.filter (fun l => !(pyStrip l == []))).map (fun l => (pyInt l).getD 0))) := by
  constructor
  · intro fl hbad pdb pdb' renum renum'
    have he := parseFilter_error_of_bad hbad
    exact ⟨run_filter_error he, by rw [run_filter_error he, run_filter_error he]⟩
  · intro fl hgood
    exact parseFilter_ok_of_good hgood

theorem c7_witness :
    filter_pdb_by_residues exPDB1 (some [("abc").data]) true = .error .malformedFilterEntry ∧
    parseFilter [("  12 ").data, ("").data, ("5").data] = .ok [12, 5] := by
  constructor
  · exact (c7_filter_parsing.1 [("abc").data]
      ⟨("abc").data, by decide, by decide, by decide⟩ exPDB1 exPDB1 true true).1
  · rw [c7_filter_parsing.2 [("  12 ").data, ("").data, ("5").data] (by decide)]
    decide

/-- Claim C10: an ATOM or TER line met outside any model block is
appended to the output verbatim in place, and nothing else changes: no
alpha-carbon or residue filtering, no renumbering, no buffering and no
contribution to the captured residue order. -/
theorem c10_outside_passthrough (target : Option (List Int)) (renum : Bool) (st : St)
    (l : Chars) (hin : st.inModel = false)
    (ht : hasTag kwATOM l = true ∨ hasTag kwTER l = true) :
    step target renum st l = .ok { st with output := st.output ++ [l] } := by
  rcases ht with hA | hT
  · exact step_outside (isPre_false_of_atom hA) (notModel_of_atom hA) (notEndmdl_of_atom hA) hin
  · exact step_outside (isPre_false_of_ter hT) (notModel_of_ter hT) (notEndmdl_of_ter hT) hin

theorem c10_witness :
    step none true ⟨[], false, [], [], 0⟩ aLine20 = .ok ⟨[aLine20], false, [], [], 0⟩ :=
  c10_outside_passthrough none true ⟨[], false, [], [], 0⟩ aLine20 rfl (Or.inl (by decide))

/-- Claim C1: with renumbering enabled, the residue number written into
the k-th selected alpha-carbon line is one plus the 0-based position of
the first occurrence of that atom's original residue ID in the captured
OriginalResidueOrder (index-of semantics); and concretely, on the
two-model input with model 1 residues 10, 20, 30 and model 2 residues
20, 30, 10, the rewritten residue numbers are 1, 2, 3 for model 1 and
2, 3, 1 for model 2. -/
theorem c1_renumbering_index_of :
    (∀ (orig : List Int) (sel out : List Chars) (c1 : Nat),
      (∀ l ∈ sel, hasTag kwATOM l = true) →
      renumberAtoms true orig sel 1 = .ok (out, c1) →
      ∀ (k : Nat) (l : Chars), sel[k]? = some l →
        ∃ i, listIndex (resOf l) orig = some i ∧
          out[k]? = some (rewriteLine (1 + k) (Int.ofNat i + 1) l)) ∧
    (filter_pdb_by_residues exPDB1 none true).toOption.map
      (fun r => r.outputLines.filterMap
        (fun l => if hasTag kwATOM l then pyInt (pySlice 22 26 l) else none)) =
      some [1, 2, 3, 2, 3, 1] := by
  refine ⟨?_, by decide⟩
  intro orig sel out c1 hAll hren k l hk
  obtain ⟨hout, -⟩ := renumberAtoms_ok_inv hAll hren
  have hmem : l ∈ sel := List.getElem?_mem hk
  obtain ⟨r, hp, nr, hn⟩ := renumberAtoms_ok_parses hAll hren l hmem
  have hres : resOf l = r := by simp [resOf, hp]
  have hn' : ((listIndex r orig).map (fun i => Int.ofNat i + 1)) = some nr := by
    have := hn
    rwa [newResOf, if_pos rfl] at this
  obtain ⟨i, hi, hnr⟩ := Option.map_eq_some'.mp hn'
  refine ⟨i, by rw [hres]; exact hi, ?_⟩
  rw [hout, rewriteAll_getElem?, hk]
  simp only [Option.map_some', Option.some.injEq]
  rw [hres, hn]
  simp [← hnr]

theorem c1_witness :
    ∃ out c1, renumberAtoms true [10, 20, 30] [aLine20] 1 = .ok (out, c1) ∧
      ∃ i, listIndex (resOf aLine20) [10, 20, 30] = some i ∧
        out[0]? = some (rewriteLine 1 (Int.ofNat i + 1) aLine20) := by
  cases hok : renumberAtoms true [10, 20, 30] [aLine20] 1 with
  | error e => cases e <;> exact absurd hok (by decide)
  | ok p =>
    obtain ⟨out, c1⟩ := p
    obtain ⟨i, hi, hout⟩ := c1_renumbering_index_of.1 [10, 20, 30] [aLine20] out c1
      (by decide) hok 0 aLine20 rfl
    exact ⟨out, c1, rfl, i, hi, hout⟩

/-- Claim C3: with renumbering enabled, finalizing a non-first model
whose selected residues include an ID with no entry in the captured
OriginalResidueOrder fails with the fatal residue-lookup error; this
failure cannot occur while processing model 1, whose finalization
always succeeds once selection succeeded; and a processing error makes
the whole run return that error, so no output file content and no log
content exist (the embedding returns no `RunResult`, modelling the
Python exception aborting before the output file is opened). -/
theorem c3_lookup_failure :
    (∀ (target : Option (List Int)) (origIn : List Int) (buf sel : List Chars)
      (rs : List Int) (mc : Nat),
      selectCA target buf = .ok (sel, rs) → ¬mc = 1 →
      (∃ r ∈ rs, listIndex r origIn = none) →
      finalizeModel target true mc origIn buf = .error .residueLookup) ∧
    (∀ (target : Option (List Int)) (renum : Bool) (origIn : List Int)
      (buf sel : List Chars) (rs : List Int),
      selectCA target buf = .ok (sel, rs) →
      ∃ p, finalizeModel target renum 1 origIn buf = .ok p) ∧
    (∀ (pdb : List Chars) (renum : Bool) (e : Err),
      processLines none renum pdb initSt = .error e →
      filter_pdb_by_residues pdb none renum = .error e) := by
  refine ⟨?_, ?_, ?_⟩
  · intro target origIn buf sel rs mc hsel hmc hbad
    have hAll := selectCA_all_atom hsel
    obtain ⟨hfil, hmap⟩ := selectCA_ok_spec hsel
    have hParse : ∀ x ∈ sel, (pyInt (pySlice 22 26 x)).isSome = true := by
      intro x hx
      have hq := (List.mem_filter.mp (hfil ▸ hx)).2
      obtain ⟨-, -, r, hp, -⟩ := caQual_parts hq
      simp [hp]
    have hbad' : ∃ x ∈ sel, listIndex (resOf x) origIn = none := by
      obtain ⟨r, hr, hnone⟩ := hbad
      rw [hmap] at hr
      obtain ⟨x, hx, hxr⟩ := List.mem_map.mp hr
      exact ⟨x, hx, by rw [hxr]; exact hnone⟩
    rw [finalizeModel_eq hsel, if_neg hmc,
        renumberAtoms_lookup_error 1 hAll hParse hbad']
  · intro target renum origIn buf sel rs hsel
    exact ⟨_, finalizeModel_first_ok hsel⟩
  · intro pdb renum e h
    show runWithTarget none renum pdb = .error e
    rw [runWithTarget, h]

theorem c3_witness :
    selectCA none [aLine99] = .ok ([aLine99], [99]) ∧
    finalizeModel none true 2 [10, 20, 30] [aLine99] = .error .residueLookup := by
  have h1 : selectCA none [aLine99] = .ok ([aLine99], [99]) := by decide
  exact ⟨h1, c3_lookup_failure.1 none [10, 20, 30] [aLine99] [aLine99] [99] 2 h1
    (by decide) ⟨99, by decide, by decide⟩⟩

/-- Claim C5: whenever a model finalizes successfully with k selected
atoms, the k rewritten lines carry serial numbers 1 through k in output
order regardless of the renumbering mode; with k at least 1 a single
TER record follows, written from the serial counter k plus 1 and the
residue-name and chain-plus-residue-tail columns of the last rewritten
atom line; with k equal to 0 the finalizer output is empty, with no
atom lines and no terminal record. -/
theorem c5_serials_and_ter (target : Option (List Int)) (renum : Bool) (mc : Nat)
    (origIn : List Int) (buf out : List Chars) (orig : List Int)
    (h : finalizeModel target renum mc origIn buf = .ok (out, orig)) :
    ∃ sel rs flt, selectCA target buf = .ok (sel, rs) ∧
      flt.length = sel.length ∧
      (∀ (k : Nat) (l : Chars), sel[k]? = some l →
        ∃ nr, flt[k]? = some (rewriteLine (1 + k) nr l)) ∧
      ((sel = [] ∧ out = []) ∨
       (¬sel = [] ∧ ∃ last, flt.getLast? = some last ∧
         out = flt ++ [terLine (sel.length + 1) last])) := by
  obtain ⟨sel, rs, hsel, horig, flt, counter, hren, hout⟩ := finalizeModel_ok_inv h
  have hAll := selectCA_all_atom hsel
  obtain ⟨hflt, hcount⟩ := renumberAtoms_ok_inv hAll hren
  have hlen : flt.length = sel.length := by rw [hflt, rewriteAll_length]
  refine ⟨sel, rs, flt, hsel, hlen, ?_, ?_⟩
  · intro k l hk
    obtain ⟨r, hp, nr, hn⟩ := renumberAtoms_ok_parses hAll hren l (List.getElem?_mem hk)
    refine ⟨nr, ?_⟩
    rw [hflt, rewriteAll_getElem?, hk]
    simp only [Option.map_some', Option.some.injEq]
    have hres : resOf l = r := by simp [resOf, hp]
    rw [hres, hn]
    rfl
  · by_cases hemp : sel = []
    · refine Or.inl ⟨hemp, ?_⟩
      rw [hout, hflt, hemp]
      rfl
    · refine Or.inr ⟨hemp, ?_⟩
      have hflt_ne : ¬flt = [] := by
        intro hx
        rw [hx] at hlen
        exact hemp (List.eq_nil_of_length_eq_zero hlen.symm)
      obtain ⟨last, hlast⟩ : ∃ last, flt.getLast? = some last := by
        cases flt with
        | nil => exact absurd rfl hflt_ne
        | cons a as => exact ⟨(a :: as).getLast (by simp), List.getLast?_eq_getLast _ _⟩
      have hA : hasTag kwATOM last = true := by
        have hmem : last ∈ flt := List.mem_of_getLast?_eq_some hlast
        rw [hflt] at hmem
        obtain ⟨x, hx, c', r', rfl⟩ := rewriteAll_mem hmem
        obtain ⟨hfil, -⟩ := selectCA_ok_spec hsel
        have hq := (List.mem_filter.mp (hfil ▸ hx)).2
        exact hasTag_atom_rewriteLine (caQual_parts hq).1 (caQual_length hq)
      have hc : counter = sel.length + 1 := by omega
      refine ⟨last, hlast, ?_⟩
      rw [hout, addTER_of_last_atom hlast hA, hc]

theorem c5_witness :
    ∃ out orig, finalizeModel (some [5, 10]) false 1 [] exBuf4 = .ok (out, orig) ∧
      ∃ sel rs flt, selectCA (some [5, 10]) exBuf4 = .ok (sel, rs) ∧
        flt.length = sel.length ∧
        (∀ (k : Nat) (l : Chars), sel[k]? = some l →
          ∃ nr, flt[k]? = some (rewriteLine (1 + k) nr l)) ∧
        ((sel = [] ∧ out = []) ∨
         (¬sel = [] ∧ ∃ last, flt.getLast? = some last ∧
           out = flt ++ [terLine (sel.length + 1) last])) := by
  cases hok : finalizeModel (some [5, 10]) false 1 [] exBuf4 with
  | error e => cases e <;> exact absurd hok (by decide)
  | ok p =>
    obtain ⟨out, orig⟩ := p
    exact ⟨out, orig, rfl, c5_serials_and_ter (some [5, 10]) false 1 [] exBuf4 out orig hok⟩

/-- Claim C8: the `ori_resid.log` contents of a successful run are
OriginalResidueOrder: finalizing model 1 captures exactly the residue
IDs of its selected alpha-carbon atoms in encounter order with
duplicates preserved, any step taken while the model counter differs
from 1 leaves the captured order unchanged, and a successful run on an
input with no MODEL line produces an empty log. -/
theorem c8_log_original_order :
    (∀ (target : Option (List Int)) (renum : Bool) (origIn : List Int)
      (buf out : List Chars) (orig : List Int),
      finalizeModel target renum 1 origIn buf = .ok (out, orig) →
      orig = (buf.filter (caQual target)).map resOf) ∧
    (∀ (target : Option (List Int)) (renum : Bool) (st st' : St) (l : Chars),
      step target renum st l = .ok st' → ¬st.modelCount = 1 →
      st'.originalResidues = st.originalResidues) ∧
    (∀ (pdb : List Chars) (filterLines : Option (List Chars)) (renum : Bool) (r : RunResult),
      filter_pdb_by_residues pdb filterLines renum = .ok r →
      (∀ l ∈ pdb, hasTag kwMODEL l = false) → r.logResidues = []) := by
  refine ⟨?_, ?_, ?_⟩
  · intro target renum origIn buf out orig h
    obtain ⟨sel, rs, hsel, horig, -⟩ := finalizeModel_ok_inv h
    obtain ⟨hfil, hmap⟩ := selectCA_ok_spec hsel
    rw [horig, if_pos rfl, hmap, hfil]
  · intro target renum st st' l h hc
    exact step_orig_const h hc
  · intro pdb filterLines renum r h hnm
    obtain ⟨target, hrun⟩ := filter_run_ok_inv h
    obtain ⟨st, hproc, -, hlog⟩ := runWithTarget_ok_inv hrun
    rw [hlog]
    exact (processLines_no_model hproc hnm rfl rfl).2

theorem c8_witness :
    ∃ out orig, finalizeModel none true 1 [] [aLine20, aLine99] = .ok (out, orig) ∧
      orig = ([aLine20, aLine99].filter (caQual none)).map resOf := by
  cases hok : finalizeModel none true 1 [] [aLine20, aLine99] with
  | error e => cases e <;> exact absurd hok (by decide)
  | ok p =>
    obtain ⟨out, orig⟩ := p
    exact ⟨out, orig, rfl,
      c8_log_original_order.1 none true [] [aLine20, aLine99] out orig hok⟩

/-- Claim C6: REMARK, TITLE and CRYST1 lines are dropped
unconditionally, whether inside or outside a model block: for any
processing run that succeeds, no line of the final output and no line
of the model buffer carries one of these tags, and at the whole-run
level no output line of a successful run carries one. -/
theorem c6_preamble_removed :
    (∀ (target : Option (List Int)) (renum : Bool) (pdb : List Chars) (st' : St),
      processLines target renum pdb initSt = .ok st' →
      (∀ x ∈ st'.output, isPre x = false) ∧ (∀ x ∈ st'.modelAtoms, isPre x = false)) ∧
    (∀ (pdb : List Chars) (filterLines : Option (List Chars)) (renum : Bool) (r : RunResult),
      filter_pdb_by_residues pdb filterLines renum = .ok r →
      ∀ x ∈ r.outputLines, isPre x = false) := by
  constructor
  · intro target renum pdb st' h
    exact processLines_no_pre h (by intro x hx; simp [initSt] at hx)
      (by intro x hx; simp [initSt] at hx)
  · intro pdb filterLines renum r h
    obtain ⟨target, hrun⟩ := filter_run_ok_inv h
    obtain ⟨st, hproc, hout, -⟩ := runWithTarget_ok_inv hrun
    intro x hx
    rw [hout] at hx
    exact (processLines_no_pre hproc (by intro y hy; simp [initSt] at hy)
      (by intro y hy; simp [initSt] at hy)).1 x hx

theorem c6_witness :
    ∃ r, filter_pdb_by_residues exPDB2 none true = .ok r ∧
      ∀ x ∈ r.outputLines, isPre x = false := by
  cases hok : filter_pdb_by_residues exPDB2 none true with
  | error e => cases e <;> exact absurd hok (by decide)
  | ok r => exact ⟨r, rfl, c6_preamble_removed.2 exPDB2 none true r hok⟩

/-- Claim C9: the per-model buffer is cleared only on a MODEL line,
never on ENDMDL, and ENDMDL does not touch the model counter; hence two
consecutive ENDMDL lines run the finalizer twice on the same stale
buffer with the same captured order, appending identical finalizer
output (followed by the ENDMDL line) twice. -/
theorem c9_stale_buffer (target : Option (List Int)) (renum : Bool) (st st1 st2 : St)
    (l : Chars) (he : hasTag kwENDMDL l = true)
    (h1 : step target renum st l = .ok st1) (h2 : step target renum st1 l = .ok st2) :
    st1.modelAtoms = st.modelAtoms ∧ st1.modelCount = st.modelCount ∧
    st2.modelAtoms = st.modelAtoms ∧ st2.modelCount = st.modelCount ∧
    ∃ fo orig, finalizeModel target renum st.modelCount st.originalResidues st.modelAtoms =
        .ok (fo, orig) ∧
      st1.output = st.output ++ fo ++ [l] ∧
      st2.output = st.output ++ fo ++ [l] ++ fo ++ [l] := by
  have hn : isPre l = false := isPre_false_of_endmdl he
  have hm : hasTag kwMODEL l = false := notModel_of_endmdl he
  rw [step_endmdl hn hm he] at h1
  cases hfin : finalizeModel target renum st.modelCount st.originalResidues st.modelAtoms with
  | error e =>
    rw [hfin] at h1
    have h' : (Except.error e : Except Err St) = .ok st1 := h1
    simp at h'
  | ok p =>
    obtain ⟨fo, orig⟩ := p
    rw [hfin] at h1
    have h1' : (Except.ok { st with inModel := false, originalResidues := orig, output := st.output ++ fo ++ [l] } : Except Err St) = .ok st1 := h1
    injection h1' with h1'
    have hc1 : st1.modelCount = st.modelCount := by rw [← h1']
    have ho1 : st1.originalResidues = orig := by rw [← h1']
    have hb1 : st1.modelAtoms = st.modelAtoms := by rw [← h1']
    have hout1 : st1.output = st.output ++ fo ++ [l] := by rw [← h1']
    have hfin2 : finalizeModel target renum st.modelCount orig st.modelAtoms = .ok (fo, orig) := by
      obtain ⟨sel, rs, hsel, horig, flt, counter, hren, hout⟩ := finalizeModel_ok_inv hfin
      rw [finalizeModel_eq hsel]
      have horig2 : (if st.modelCount = 1 then rs else orig) = orig := by
        by_cases hc : st.modelCount = 1
        · rw [if_pos hc, horig, if_pos hc]
        · rw [if_neg hc]
      rw [horig2, hren]
      show (Except.ok (addTER counter flt, orig) : Except Err (List Chars × List Int)) =
        .ok (fo, orig)
      rw [hout]
    rw [step_endmdl hn hm he, hc1, ho1, hb1, hfin2] at h2
    have h2' : (Except.ok { output := st1.output ++ fo ++ [l], inModel := false, modelAtoms := st.modelAtoms, originalResidues := orig, modelCount := st.modelCount } : Except Err St) = .ok st2 := h2
    injection h2' with h2'
    refine ⟨hb1, hc1, ?_, ?_, fo, orig, rfl, hout1, ?_⟩
    · rw [← h2']
    · rw [← h2']
    · rw [← h2']
      show st1.output ++ fo ++ [l] = st.output ++ fo ++ [l] ++ fo ++ [l]
      rw [hout1]

theorem c9_witness :
    ∃ st1 st2 : St, step none false ⟨[], true, [aLine20], [], 1⟩ lineENDMDL = .ok st1 ∧
      step none false st1 lineENDMDL = .ok st2 ∧
      st1.modelAtoms = [aLine20] ∧ st2.modelCount = 1 := by
  cases h1 : step none false ⟨[], true, [aLine20], [], 1⟩ lineENDMDL with
  | error e => cases e <;> exact absurd h1 (by decide)
  | ok st1 =>
    cases h2 : step none false st1 lineENDMDL with
    | error e =>
      have hbind : ((step none false ⟨[], true, [aLine20], [], 1⟩ lineENDMDL).bind
          (fun s => step none false s lineENDMDL)) = .error e := by
        rw [h1]
        exact h2
      cases e <;> exact absurd hbind (by decide)
    | ok st2 =>
      obtain ⟨hA1, hC1, hA2, hC2, -⟩ :=
        c9_stale_buffer none false ⟨[], true, [aLine20], [], 1⟩ st1 st2 lineENDMDL
          (by decide) h1 h2
      exact ⟨st1, st2, rfl, h2, hA1, hC2⟩

end FilterPDB
